import Mathlib

/-!
Shallow embedding of the `DirectedGraph` container of
`src/directed_graph.h` (namespace `Kris_Torres_UCLA_PIC_10C_Winter_2014`).

Representation notes.

* `Node::next_` is a `std::vector<std::weak_ptr<Node>>`.  Every slot of the
  graph's `buffer_` holds a `shared_ptr` to a node freshly allocated by
  `push_back` (or by the copy constructor), so distinct buffer positions hold
  distinct node identities, and every pointer stored into a `next_` list is one
  of the live `buffer_` entries.  All pointer comparisons in the source
  (`lock() == buffer_[k]`, `*i == j->lock()`) therefore compare node
  identities, and a pointer is represented here by the current position of its
  target node in `buffer_`.  When `erase` removes buffer slot `k`, the nodes
  after it shift down one position while the stored pointers keep following
  the same nodes; in this positional representation that shift is the map
  sending every adjacency entry `t > k` to `t - 1` (entries equal to `k` were
  all removed by `disconnect(k)` beforehand).

* Machine integers: all indices are `size_t`; the program only ever compares
  them and decrements values that are at least 1, so `Nat` models them exactly.

* Exceptions (`std::out_of_range`, `std::logic_error`) are modelled by
  `Except GraphError`; a C++ throw propagates before any member was modified,
  so the error branches return no new state.
-/

namespace PIC10C

/-- A directed edge: an ordered pair of node positions (head, tail),
mirroring `DirectedGraph<T>::DirectedEdge`. -/
structure DirectedEdge where
  head : Nat
  tail : Nat
deriving DecidableEq, Repr

/-- Modelled from the spec: `DirectedEdge::operator<` is declared in the
header but its definition is not under src/.  Spec section 3: "Total order:
primarily by head, secondarily by tail". -/
def edgeLT (a b : DirectedEdge) : Bool :=
  a.head < b.head || (a.head == b.head && a.tail < b.tail)

/-- `std::stable_sort` orders by `operator<`; in the sorted output an element
may precede another exactly when the latter is not `<` the former. -/
def edgeLE (a b : DirectedEdge) : Bool :=
  !(edgeLT b a)

/-- The non-strict order on edge records as a relation, for sortedness
statements. -/
def edgeRel (a b : DirectedEdge) : Prop := edgeLE a b = true

instance : DecidableRel edgeRel := fun a b => by
  unfold edgeRel
  infer_instance

/-- `std::stable_sort`'s contract: a sorted permutation of the input in which
elements comparing equivalent keep their relative order.  That output is
unique, so any stable sorting algorithm is extensionally the same function;
the embedding uses stable insertion sort (`List.insertionSort`), which the
kernel can evaluate. -/
def stableSort (l : List DirectedEdge) : List DirectedEdge :=
  l.insertionSort edgeRel

/-- Modelled from the spec: `DirectedEdge::operator==` is declared in the
header but its definition is not under src/.  Spec section 3: "two EdgeRecords
are equal iff head and tail match". -/
def edgeBEq (a b : DirectedEdge) : Bool :=
  a.head == b.head && a.tail == b.tail

/-- `DirectedGraph<T>::Node`: one element value (`data_`) and the outgoing
adjacency list (`next_`), each entry being the buffer position of the node the
stored `weak_ptr` refers to. -/
structure Node (T : Type) where
  data : T
  next : List Nat
deriving DecidableEq, Repr

/-- `DirectedGraph<T>`: the node buffer (`buffer_`) and the edge list
(`path_`).  The member is declared as `std::vector<DirectedGraph> path_;` in
the header, an obvious typo for `std::vector<DirectedEdge>`: every use of
`path_` (`push_back(DirectedEdge(from, to))`, `element.head()`, comparison
with `DirectedEdge(from, to)`) only type-checks with `DirectedEdge` elements,
so it is embedded with that element type. -/
structure DirectedGraph (T : Type) where
  buffer_ : List (Node T)
  path_ : List DirectedEdge
deriving DecidableEq, Repr

/-- The two error conditions of the container: `std::out_of_range` thrown by
`test_index`, and `std::logic_error` ("Empty directed graph") thrown by
`begin`/`front`. -/
inductive GraphError where
  | indexOutOfRange
  | emptyGraph
deriving DecidableEq, Repr

namespace DirectedGraph

variable {T : Type}

/-- `DirectedGraph()`: the default-constructed empty graph. -/
def emptyGraph : DirectedGraph T := { buffer_ := [], path_ := [] }

/-- `size()`: the number of nodes. -/
def size (g : DirectedGraph T) : Nat := g.buffer_.length

/-- `empty()`. -/
def emptyq (g : DirectedGraph T) : Bool := g.buffer_.isEmpty

/-- Modelled from the spec: `test_index` is declared (and called by every
bounds-checked member) but its definition is not under src/.  Spec section 7:
IndexOutOfRange is "raised by every bounds-checked accessor/mutator ... when a
supplied position is >= size()". -/
def test_index (g : DirectedGraph T) (k : Nat) : Except GraphError Unit :=
  if g.size ≤ k then .error .indexOutOfRange else .ok ()

/-- In-place update of one vector slot, as done through
`buffer_[i] -> ...` references in the source. -/
def modifyAt (f : α → α) : Nat → List α → List α
  | _, [] => []
  | 0, x :: xs => f x :: xs
  | i + 1, x :: xs => x :: modifyAt f i xs

/-- `push_back(val)`: appends a freshly allocated node with no outgoing
edges. -/
def push_back (g : DirectedGraph T) (val : T) : DirectedGraph T :=
  { g with buffer_ := g.buffer_ ++ [Node.mk val []] }

/-- `DirectedGraph(const std::vector<T>&)`: one `push_back` per element. -/
def ofVector (v : List T) : DirectedGraph T :=
  v.foldl push_back emptyGraph

/-- `at(k)` (both overloads perform the same check and read). -/
def atVal (g : DirectedGraph T) (k : Nat) : Except GraphError T :=
  match g.test_index k with
  | .error e => .error e
  | .ok _ =>
    match g.buffer_[k]? with
    | some nd => .ok nd.data
    | none => .error .indexOutOfRange

/-- `front()` (both overloads). -/
def front (g : DirectedGraph T) : Except GraphError T :=
  if g.emptyq then .error .emptyGraph
  else
    match g.buffer_[0]? with
    | some nd => .ok nd.data
    | none => .error .emptyGraph

/-- `connect(from, to)`: bounds-checks both positions, appends a back
reference to node `to` at the end of node `from`'s adjacency list, appends
the edge record, and re-sorts the edge list with a stable sort
(`std::stable_sort` with `operator<`). -/
def connect (g : DirectedGraph T) (frm tgt : Nat) : Except GraphError (DirectedGraph T) :=
  match g.test_index frm with
  | .error e => .error e
  | .ok _ =>
    match g.test_index tgt with
    | .error e => .error e
    | .ok _ =>
      .ok { buffer_ := modifyAt (fun nd => { nd with next := nd.next ++ [tgt] }) frm g.buffer_,
            path_ := stableSort (g.path_ ++ [DirectedEdge.mk frm tgt]) }

/-- `disconnect(k)`: bounds-checks `k`; clears node `k`'s adjacency list;
removes from every node's adjacency list every reference to node `k`
(`pos->lock() == buffer_[k]`); and erases from `path_` every record whose
head or tail equals `k` (`std::remove_if`). -/
def disconnect (g : DirectedGraph T) (k : Nat) : Except GraphError (DirectedGraph T) :=
  match g.test_index k with
  | .error e => .error e
  | .ok _ =>
    let buf1 := modifyAt (fun nd => { nd with next := [] }) k g.buffer_
    .ok { buffer_ := buf1.map (fun nd => { nd with next := nd.next.filter (fun t => !(t == k)) }),
          path_ := g.path_.filter (fun e => !(e.head == k || e.tail == k)) }

/-- The downward for-loop `for (i = v.size(); i > 0; i--) if (p v[i-1])
{ erase(i-1); break; }` used by `disconnect(from, to)` on both
representations: it removes the element at the highest index satisfying `p`
(the rightmost occurrence) and nothing else. -/
def eraseRightmost (p : α → Bool) (l : List α) : List α :=
  (List.eraseP p l.reverse).reverse

/-- `disconnect(from, to)` (the two-argument overload): bounds-checks both
positions, removes the rightmost reference to node `to` in node `from`'s
adjacency list (`edge[i-1].lock() == buffer_[to]`), and removes the rightmost
record equal to `DirectedEdge(from, to)` from `path_`. -/
def disconnectEdge (g : DirectedGraph T) (frm tgt : Nat) : Except GraphError (DirectedGraph T) :=
  match g.test_index frm with
  | .error e => .error e
  | .ok _ =>
    match g.test_index tgt with
    | .error e => .error e
    | .ok _ =>
      .ok { buffer_ := modifyAt (fun nd =>
              { nd with next := eraseRightmost (fun t => t == tgt) nd.next }) frm g.buffer_,
            path_ := eraseRightmost (fun e => edgeBEq e (DirectedEdge.mk frm tgt)) g.path_ }

/-- `erase(k)`: bounds-checks `k`, calls `disconnect(k)`, then erases buffer
slot `k`.  The vector erase shifts every node after position `k` down one
slot while the stored adjacency pointers keep following the same nodes, so in
the positional representation every adjacency entry `t > k` becomes `t - 1`
(entries equal to `k` were all removed by `disconnect(k)`).  The source does
nothing further: in particular `path_` keeps the record indices it had after
`disconnect(k)`. -/
def erase (g : DirectedGraph T) (k : Nat) : Except GraphError (DirectedGraph T) :=
  match g.test_index k with
  | .error e => .error e
  | .ok _ =>
    match g.disconnect k with
    | .error e => .error e
    | .ok g1 =>
      .ok { buffer_ := (g1.buffer_.eraseIdx k).map
              (fun nd => { nd with next := nd.next.map (fun t => if k < t then t - 1 else t) }),
            path_ := g1.path_ }

/-- `clear()`: `disconnect(i)` for every `i` below the (unchanging) node
count, then `buffer_.clear()`. -/
def clear (g : DirectedGraph T) : DirectedGraph T :=
  let g1 := (List.range g.size).foldl
    (fun h i => match h.disconnect i with | .ok h2 => h2 | .error _ => h) g
  { buffer_ := [], path_ := g1.path_ }

/-- `outdegree(k)`: bounds-checked length of node `k`'s adjacency list. -/
def outdegree (g : DirectedGraph T) (k : Nat) : Except GraphError Nat :=
  match g.test_index k with
  | .error e => .error e
  | .ok _ =>
    match g.buffer_[k]? with
    | some nd => .ok nd.next.length
    | none => .error .indexOutOfRange

/-- `indegree(k)`: bounds-checked count, over every node's adjacency list, of
the references to node `k` (`column.lock() == buffer_[k]`). -/
def indegree (g : DirectedGraph T) (k : Nat) : Except GraphError Nat :=
  match g.test_index k with
  | .error e => .error e
  | .ok _ =>
    .ok ((g.buffer_.map (fun nd => nd.next.countP (fun t => t == k))).sum)

/-- `simple()`: false as soon as some node's adjacency list contains the node
itself (`*i == j->lock()`) or two positions `j ≠ k` holding the same target
(`j->lock() == k->lock()`); true otherwise. -/
def simple (g : DirectedGraph T) : Bool :=
  g.buffer_.enum.all (fun inode =>
    inode.2.next.enum.all (fun jx =>
      !(jx.2 == inode.1) &&
      inode.2.next.enum.all (fun ky => jx.1 == ky.1 || !(jx.2 == ky.2))))

/-- `std::vector::operator==` on `path_`, driven elementwise by
`DirectedEdge::operator==`. -/
def pathEq : List DirectedEdge → List DirectedEdge → Bool
  | [], [] => true
  | a :: as, b :: bs => edgeBEq a b && pathEq as bs
  | _, _ => false

/-- `operator==`: same node count, equal node values at every position, equal
edge lists.  Adjacency lists are not inspected. -/
def graphEq [DecidableEq T] (g h : DirectedGraph T) : Bool :=
  g.size == h.size &&
  (List.range g.size).all (fun i =>
    match g.buffer_[i]?, h.buffer_[i]? with
    | some a, some b => a.data == b.data
    | _, _ => true) &&
  pathEq g.path_ h.path_

/-- `DirectedGraph(DirectedGraph&& rhs)` and, identically after its
`clear()`, `operator=(DirectedGraph&& rhs)`: the member initializer
`buffer_(std::move(rhs.buffer_))` transfers the node vector (a moved-from
`std::vector` is empty), while `path_(rhs.path_)` *copies* the edge list, so
`rhs` keeps its `path_`.  Returns (the graph that received the nodes, the
source as the move leaves it). -/
def moveConstruct (rhs : DirectedGraph T) : DirectedGraph T × DirectedGraph T :=
  ({ buffer_ := rhs.buffer_, path_ := rhs.path_ },
   { buffer_ := [], path_ := rhs.path_ })

/-- A C++ call `g.op(...)` that throws leaves `g` unchanged; `runOn` is that
reading of an `Except`-valued operation result. -/
def runOn (g : DirectedGraph T) (r : Except GraphError (DirectedGraph T)) : DirectedGraph T :=
  match r with
  | .ok h => h
  | .error _ => g

/-- `connect` under the throw-leaves-unchanged reading. -/
def connectRun (g : DirectedGraph T) (frm tgt : Nat) : DirectedGraph T :=
  runOn g (g.connect frm tgt)

/-- Node `k`'s adjacency list as read through `buffer_[k] -> next_`. -/
def nextAt (g : DirectedGraph T) (k : Nat) : List Nat :=
  (g.buffer_[k]?.map Node.next).getD []

/-- The (head, tail) pairs read off the adjacency lists, with multiplicity:
one pair per stored back reference. -/
def adjPairs (g : DirectedGraph T) : List DirectedEdge :=
  (g.buffer_.enum.map (fun inode =>
    inode.2.next.map (fun t => DirectedEdge.mk inode.1 t))).flatten

/-- The dual-representation invariant of spec section 3: every adjacency-list
reference corresponds to exactly one edge record and vice versa, i.e. the two
representations carry the same multiset of (head, tail) pairs. -/
def dualInvariant (g : DirectedGraph T) : Prop :=
  (adjPairs g).Perm g.path_

instance (g : DirectedGraph T) : Decidable (dualInvariant g) :=
  List.decidablePerm _ _

end DirectedGraph

end PIC10C

namespace PIC10C

open DirectedGraph

/-! ### Basic lemmas about the embedding's building blocks -/

theorem edgeBEq_iff (a b : DirectedEdge) : edgeBEq a b = true ↔ a = b := by
  cases a with
  | mk ah at_ =>
    cases b with
    | mk bh bt =>
      simp [edgeBEq, DirectedEdge.mk.injEq]

theorem edgeLT_iff (a b : DirectedEdge) :
    edgeLT a b = true ↔ a.head < b.head ∨ (a.head = b.head ∧ a.tail < b.tail) := by
  simp [edgeLT]

theorem edgeLE_iff (a b : DirectedEdge) :
    edgeLE a b = true ↔ a.head < b.head ∨ (a.head = b.head ∧ a.tail ≤ b.tail) := by
  simp [edgeLE, edgeLT]
  omega

theorem edgeLE_trans (a b c : DirectedEdge) (hab : edgeLE a b = true)
    (hbc : edgeLE b c = true) : edgeLE a c = true := by
  rw [edgeLE_iff] at hab hbc ⊢
  omega

theorem edgeLE_total (a b : DirectedEdge) : (edgeLE a b || edgeLE b a) = true := by
  rw [Bool.or_eq_true, edgeLE_iff, edgeLE_iff]
  omega

theorem edgeLE_antisymm (a b : DirectedEdge) (hab : edgeLE a b = true)
    (hba : edgeLE b a = true) : a = b := by
  rw [edgeLE_iff] at hab hba
  cases a with
  | mk ah at_ =>
    cases b with
    | mk bh bt =>
      simp only at hab hba
      simp only [DirectedEdge.mk.injEq]
      omega

theorem pathEq_iff (l1 l2 : List DirectedEdge) : pathEq l1 l2 = true ↔ l1 = l2 := by
  induction l1 generalizing l2 with
  | nil => cases l2 <;> simp [pathEq]
  | cons a as ih =>
    cases l2 with
    | nil => simp [pathEq]
    | cons b bs => simp [pathEq, edgeBEq_iff, ih]

theorem length_modifyAt (f : α → α) (i : Nat) (l : List α) :
    (modifyAt f i l).length = l.length := by
  induction l generalizing i with
  | nil => cases i <;> simp [modifyAt]
  | cons x xs ih =>
    cases i with
    | zero => rfl
    | succ j => simp [modifyAt, ih]

theorem getElem?_modifyAt_self (f : α → α) (i : Nat) (l : List α) (x : α)
    (h : l[i]? = some x) : (modifyAt f i l)[i]? = some (f x) := by
  induction l generalizing i with
  | nil => simp at h
  | cons y ys ih =>
    cases i with
    | zero =>
      simp at h
      subst h
      simp [modifyAt]
    | succ j =>
      simp at h
      simp [modifyAt]
      exact ih j h

theorem getElem?_modifyAt_ne (f : α → α) (i j : Nat) (l : List α) (h : j ≠ i) :
    (modifyAt f i l)[j]? = l[j]? := by
  induction l generalizing i j with
  | nil => cases i <;> simp [modifyAt]
  | cons y ys ih =>
    cases i with
    | zero =>
      cases j with
      | zero => exact absurd rfl h
      | succ j2 => simp [modifyAt]
    | succ i2 =>
      cases j with
      | zero => simp [modifyAt]
      | succ j2 =>
        simp [modifyAt]
        exact ih i2 j2 (by omega)

theorem modifyAt_modifyAt (f g : α → α) (i : Nat) (l : List α) :
    modifyAt f i (modifyAt g i l) = modifyAt (fun x => f (g x)) i l := by
  induction l generalizing i with
  | nil => cases i <;> simp [modifyAt]
  | cons y ys ih =>
    cases i with
    | zero => rfl
    | succ j => simp [modifyAt, ih]

theorem modifyAt_eq_self (f : α → α) (i : Nat) (l : List α) (x : α)
    (hget : l[i]? = some x) (hfix : f x = x) : modifyAt f i l = l := by
  induction l generalizing i with
  | nil => cases i <;> simp [modifyAt]
  | cons y ys ih =>
    cases i with
    | zero =>
      simp at hget
      subst hget
      simp [modifyAt, hfix]
    | succ j =>
      simp at hget
      simp [modifyAt, ih j hget]

theorem map_modifyAt_invariant (F : α → β) (f : α → α) (i : Nat) (l : List α)
    (h : ∀ x, F (f x) = F x) : (modifyAt f i l).map F = l.map F := by
  induction l generalizing i with
  | nil => cases i <;> simp [modifyAt]
  | cons y ys ih =>
    cases i with
    | zero => simp [modifyAt, h]
    | succ j => simp [modifyAt, ih]

theorem sum_map_modifyAt (F : α → Nat) (f : α → α) (i : Nat) (l : List α) (x : α)
    (h : l[i]? = some x) :
    ((modifyAt f i l).map F).sum + F x = (l.map F).sum + F (f x) := by
  induction l generalizing i with
  | nil => simp at h
  | cons y ys ih =>
    cases i with
    | zero =>
      simp at h
      subst h
      simp [modifyAt]
      omega
    | succ j =>
      simp at h
      have := ih j h
      simp [modifyAt]
      omega

theorem eraseRightmost_decomp (p : α → Bool) (u v : List α) (a : α)
    (ha : p a = true) (hv : ∀ x ∈ v, p x = false) :
    eraseRightmost p (u ++ a :: v) = u ++ v := by
  unfold eraseRightmost
  have h1 : (u ++ a :: v).reverse = v.reverse ++ a :: u.reverse := by
    simp
  rw [h1]
  rw [List.eraseP_append_right]
  · rw [List.eraseP_cons_of_pos ha]
    simp
  · intro b hb
    simp [hv b (List.mem_reverse.mp hb)]

theorem eraseRightmost_of_forall_not (p : α → Bool) (l : List α)
    (h : ∀ x ∈ l, p x = false) : eraseRightmost p l = l := by
  unfold eraseRightmost
  rw [List.eraseP_of_forall_not]
  · simp
  · intro b hb
    simp [h b (List.mem_reverse.mp hb)]

theorem eraseRightmost_append_singleton (p : α → Bool) (l : List α) (a : α)
    (ha : p a = true) : eraseRightmost p (l ++ [a]) = l := by
  have := eraseRightmost_decomp p l [] a ha (by intro x hx; simp at hx)
  simpa using this

end PIC10C

namespace PIC10C

open DirectedGraph

instance : IsTotal DirectedEdge edgeRel where
  total a b := by
    have h := edgeLE_total a b
    rw [Bool.or_eq_true] at h
    exact h

instance : IsTrans DirectedEdge edgeRel where
  trans a b c := edgeLE_trans a b c

instance : IsAntisymm DirectedEdge edgeRel where
  antisymm a b := edgeLE_antisymm a b

theorem size_eq_length (g : DirectedGraph T) : g.size = g.buffer_.length := rfl

theorem connect_eq_ok (g : DirectedGraph T) (frm tgt : Nat)
    (hf : frm < g.size) (ht : tgt < g.size) :
    g.connect frm tgt =
      .ok { buffer_ := modifyAt (fun nd => { nd with next := nd.next ++ [tgt] }) frm g.buffer_,
            path_ := stableSort (g.path_ ++ [DirectedEdge.mk frm tgt]) } := by
  unfold connect test_index
  rw [if_neg (by omega), if_neg (by omega)]

theorem disconnect_eq_ok (g : DirectedGraph T) (k : Nat) (hk : k < g.size) :
    g.disconnect k =
      .ok { buffer_ := (modifyAt (fun nd => { nd with next := [] }) k g.buffer_).map
              (fun nd => { nd with next := nd.next.filter (fun t => !(t == k)) }),
            path_ := g.path_.filter (fun e => !(e.head == k || e.tail == k)) } := by
  unfold disconnect test_index
  rw [if_neg (by omega)]

theorem disconnectEdge_eq_ok (g : DirectedGraph T) (frm tgt : Nat)
    (hf : frm < g.size) (ht : tgt < g.size) :
    g.disconnectEdge frm tgt =
      .ok { buffer_ := modifyAt (fun nd =>
              { nd with next := eraseRightmost (fun t => t == tgt) nd.next }) frm g.buffer_,
            path_ := eraseRightmost (fun e => edgeBEq e (DirectedEdge.mk frm tgt)) g.path_ } := by
  unfold disconnectEdge test_index
  rw [if_neg (by omega), if_neg (by omega)]

theorem outdegree_eq_ok (g : DirectedGraph T) (k : Nat) (nd : Node T)
    (h : g.buffer_[k]? = some nd) : g.outdegree k = .ok nd.next.length := by
  have hk : k < g.buffer_.length := by
    rcases List.getElem?_eq_some_iff.mp h with ⟨h1, _⟩
    exact h1
  have hk2 : ¬ (g.size ≤ k) := by
    rw [size_eq_length]
    omega
  unfold outdegree test_index
  rw [if_neg hk2, h]

theorem indegree_eq_ok (g : DirectedGraph T) (k : Nat) (hk : k < g.size) :
    g.indegree k = .ok ((g.buffer_.map (fun nd => nd.next.countP (fun t => t == k))).sum) := by
  unfold indegree test_index
  rw [if_neg (by omega)]

/-- C5: every bounds-checked operation (`at`, `connect`, both `disconnect`
overloads, `erase`, `indegree`, `outdegree`) raises the IndexOutOfRange
condition exactly when a supplied position is `≥ size()`.  In the source, as
in each definition here, the `test_index` calls run before any member is
touched, so a failing call raises the error having produced no new state: the
C++ object is observably unchanged by a failed call. -/
theorem bounds_checks_exact (g : DirectedGraph T) (k frm tgt : Nat) :
    (g.atVal k = .error .indexOutOfRange ↔ g.size ≤ k) ∧
    (g.connect frm tgt = .error .indexOutOfRange ↔ g.size ≤ frm ∨ g.size ≤ tgt) ∧
    (g.disconnect k = .error .indexOutOfRange ↔ g.size ≤ k) ∧
    (g.disconnectEdge frm tgt = .error .indexOutOfRange ↔ g.size ≤ frm ∨ g.size ≤ tgt) ∧
    (g.erase k = .error .indexOutOfRange ↔ g.size ≤ k) ∧
    (g.indegree k = .error .indexOutOfRange ↔ g.size ≤ k) ∧
    (g.outdegree k = .error .indexOutOfRange ↔ g.size ≤ k) := by
  have hat : g.atVal k = .error .indexOutOfRange ↔ g.size ≤ k := by
    by_cases h : g.size ≤ k
    · unfold atVal test_index
      rw [if_pos h]
      simp [h]
    · have hk : k < g.buffer_.length := by
        rw [← size_eq_length]
        omega
      unfold atVal test_index
      rw [if_neg h, List.getElem?_eq_getElem hk]
      simp [h]
  have hconn : g.connect frm tgt = .error .indexOutOfRange ↔ g.size ≤ frm ∨ g.size ≤ tgt := by
    by_cases hf : g.size ≤ frm
    · unfold connect test_index
      rw [if_pos hf]
      simp [hf]
    · by_cases ht : g.size ≤ tgt
      · unfold connect test_index
        rw [if_neg hf, if_pos ht]
        simp [ht]
      · rw [connect_eq_ok g frm tgt (by omega) (by omega)]
        simp [hf, ht]
  have hdisc : g.disconnect k = .error .indexOutOfRange ↔ g.size ≤ k := by
    by_cases h : g.size ≤ k
    · unfold disconnect test_index
      rw [if_pos h]
      simp [h]
    · rw [disconnect_eq_ok g k (by omega)]
      simp [h]
  have hde : g.disconnectEdge frm tgt = .error .indexOutOfRange ↔ g.size ≤ frm ∨ g.size ≤ tgt := by
    by_cases hf : g.size ≤ frm
    · unfold disconnectEdge test_index
      rw [if_pos hf]
      simp [hf]
    · by_cases ht : g.size ≤ tgt
      · unfold disconnectEdge test_index
        rw [if_neg hf, if_pos ht]
        simp [ht]
      · rw [disconnectEdge_eq_ok g frm tgt (by omega) (by omega)]
        simp [hf, ht]
  have her : g.erase k = .error .indexOutOfRange ↔ g.size ≤ k := by
    by_cases h : g.size ≤ k
    · unfold erase test_index
      rw [if_pos h]
      simp [h]
    · unfold erase test_index
      rw [if_neg h, disconnect_eq_ok g k (by omega)]
      simp [h]
  have hin : g.indegree k = .error .indexOutOfRange ↔ g.size ≤ k := by
    by_cases h : g.size ≤ k
    · unfold indegree test_index
      rw [if_pos h]
      simp [h]
    · rw [indegree_eq_ok g k (by omega)]
      simp [h]
  have hout : g.outdegree k = .error .indexOutOfRange ↔ g.size ≤ k := by
    by_cases h : g.size ≤ k
    · unfold outdegree test_index
      rw [if_pos h]
      simp [h]
    · have hk : k < g.buffer_.length := by
        rw [← size_eq_length]
        omega
      rw [outdegree_eq_ok g k (g.buffer_[k]) (List.getElem?_eq_getElem hk)]
      simp [h]
  exact ⟨hat, hconn, hdisc, hde, her, hin, hout⟩

end PIC10C

namespace PIC10C

open DirectedGraph

/-- Three nodes holding 10, 20, 30, then `connect(1, 2)`: the concrete input
exhibiting the missing renumbering in `erase`. -/
def gRenumber : DirectedGraph Nat := (ofVector [10, 20, 30]).connectRun 1 2

/-- One node holding 7, then `connect(0, 0)`: a single self loop. -/
def gLoop : DirectedGraph Nat := (ofVector [7]).connectRun 0 0

/-- C1: on the graph with nodes 10, 20, 30 and the single edge record (1, 2),
`erase(0)` does reduce `size()` from 3 to 2 and leaves no record referencing
the erased index 0, but the surviving record stays (1, 2): its head and tail,
both greater than the erased index 0, are not decremented, where the claim
requires the record to become (0, 1).  The adjacency lists, which follow node
identity through the vector erase, do shift: node 20, now at position 0,
points at position 1. -/
theorem erase_keeps_unrenumbered_records :
    ∃ g1 : DirectedGraph Nat, gRenumber.erase 0 = .ok g1 ∧
      g1.size = gRenumber.size - 1 ∧
      g1.path_ = [DirectedEdge.mk 1 2] ∧
      g1.nextAt 0 = [1] :=
  ⟨_, rfl, rfl, rfl, rfl⟩

/-- C2: the dual-representation invariant holds before `erase(0)` (the
adjacency read-off and the record list both carry exactly (1, 2)), the call
succeeds, and the invariant is false afterwards: the adjacency read-off is
[(0, 1)] while the record list still says [(1, 2)].  `erase` therefore does
not preserve the invariant. -/
theorem erase_breaks_dual_invariant :
    dualInvariant gRenumber ∧
    ∃ g1 : DirectedGraph Nat, gRenumber.erase 0 = .ok g1 ∧ ¬ dualInvariant g1 :=
  ⟨by decide, _, rfl, by decide⟩

/-- C3: move construction from the one-node graph with a self loop.  The
moved-from source reports empty (`buffer_` was transferred out), but it keeps
its edge-record list [(0, 0)] because the member initializer `path_(rhs.path_)`
copies instead of moving; the source therefore violates the representation
invariant (a record with no nodes), and does not compare equal to a freshly
constructed empty graph, so it does not behave as one. -/
theorem moved_from_source_keeps_records :
    (moveConstruct gLoop).2.emptyq = true ∧
    (moveConstruct gLoop).2.path_ = [DirectedEdge.mk 0 0] ∧
    graphEq (moveConstruct gLoop).2 emptyGraph = false ∧
    ¬ dualInvariant (moveConstruct gLoop).2 :=
  ⟨rfl, rfl, rfl, by decide⟩

/-- C10: if both positions are in range and the graph holds no edge
(frm, tgt) — no back reference to `tgt` in node `frm`'s adjacency list and no
record (frm, tgt) — then `disconnect(frm, tgt)` returns normally and leaves
the graph unchanged: both rightmost-removal scans find nothing. -/
theorem disconnectEdge_noop (g : DirectedGraph T) (frm tgt : Nat)
    (hf : frm < g.size) (ht : tgt < g.size)
    (hadj : tgt ∉ g.nextAt frm) (hrec : DirectedEdge.mk frm tgt ∉ g.path_) :
    g.disconnectEdge frm tgt = .ok g := by
  rw [disconnectEdge_eq_ok g frm tgt hf ht]
  have hfl : frm < g.buffer_.length := by
    rw [← size_eq_length]
    omega
  have hsome : g.buffer_[frm]? = some (g.buffer_[frm]) := List.getElem?_eq_getElem hfl
  have hnextAt : g.nextAt frm = (g.buffer_[frm]).next := by
    unfold nextAt
    rw [hsome]
    rfl
  have hnofix : eraseRightmost (fun t => t == tgt) (g.buffer_[frm]).next
      = (g.buffer_[frm]).next := by
    apply eraseRightmost_of_forall_not
    intro x hx
    have hne : x ≠ tgt := by
      intro he
      subst he
      exact hadj (hnextAt ▸ hx)
    simp [hne]
  have hpath : eraseRightmost (fun e => edgeBEq e (DirectedEdge.mk frm tgt)) g.path_
      = g.path_ := by
    apply eraseRightmost_of_forall_not
    intro e he
    have hne : ¬ (edgeBEq e (DirectedEdge.mk frm tgt) = true) := by
      intro hb
      exact hrec ((edgeBEq_iff e (DirectedEdge.mk frm tgt)).mp hb ▸ he)
    simp only [Bool.not_eq_true] at hne
    exact hne
  have hbuf : modifyAt (fun nd =>
      { nd with next := eraseRightmost (fun t => t == tgt) nd.next }) frm g.buffer_
      = g.buffer_ := by
    apply modifyAt_eq_self _ _ _ _ hsome
    rw [hnofix]
  rw [hbuf, hpath]

/-- Two nodes 5, 6 with the single edge (0, 1), for the C10 witness. -/
def gPair : DirectedGraph Nat := (ofVector [5, 6]).connectRun 0 1

theorem disconnectEdge_noop_witness :
    (1 < gPair.size ∧ 0 < gPair.size ∧ 0 ∉ gPair.nextAt 1 ∧
      DirectedEdge.mk 1 0 ∉ gPair.path_) ∧
    gPair.disconnectEdge 1 0 = .ok gPair :=
  ⟨⟨by decide, by decide, by decide, by decide⟩,
   disconnectEdge_noop gPair 1 0 (by decide) (by decide) (by decide) (by decide)⟩

end PIC10C

namespace PIC10C

open DirectedGraph

/-- C4: with both positions in range (witnessed by the degree reads
succeeding), `connect(frm, tgt)` succeeds and raises `outdegree(frm)` and
`indegree(tgt)` by exactly one, and an immediately following
`disconnect(frm, tgt)` succeeds and restores both degrees to their
pre-`connect` values: the rightmost back reference it removes is exactly the
one `connect` appended. -/
theorem connect_disconnect_degrees (g : DirectedGraph T) (frm tgt d i : Nat)
    (hd : g.outdegree frm = .ok d) (hi : g.indegree tgt = .ok i) :
    ∃ g1, g.connect frm tgt = .ok g1 ∧
      g1.outdegree frm = .ok (d + 1) ∧ g1.indegree tgt = .ok (i + 1) ∧
      ∃ g2, g1.disconnectEdge frm tgt = .ok g2 ∧
        g2.outdegree frm = .ok d ∧ g2.indegree tgt = .ok i := by
  have hf : frm < g.size := by
    by_cases h : g.size ≤ frm
    · unfold outdegree test_index at hd
      rw [if_pos h] at hd
      simp at hd
    · omega
  have ht : tgt < g.size := by
    by_cases h : g.size ≤ tgt
    · unfold indegree test_index at hi
      rw [if_pos h] at hi
      simp at hi
    · omega
  have hfl : frm < g.buffer_.length := by
    rw [← size_eq_length]
    omega
  obtain ⟨nd, hnd⟩ : ∃ nd, g.buffer_[frm]? = some nd := ⟨_, List.getElem?_eq_getElem hfl⟩
  obtain ⟨dv, nl⟩ := nd
  have hd2 : nl.length = d := by
    rw [outdegree_eq_ok g frm ⟨dv, nl⟩ hnd] at hd
    simpa using hd
  have hi2 : (g.buffer_.map (fun nd => nd.next.countP (fun t => t == tgt))).sum = i := by
    rw [indegree_eq_ok g tgt ht] at hi
    simpa using hi
  refine ⟨{ buffer_ := modifyAt (fun nd => { nd with next := nd.next ++ [tgt] }) frm g.buffer_,
            path_ := stableSort (g.path_ ++ [DirectedEdge.mk frm tgt]) },
          connect_eq_ok g frm tgt hf ht, ?_, ?_, ?_⟩
  · rw [outdegree_eq_ok _ frm ({ data := dv, next := nl ++ [tgt] })
      (getElem?_modifyAt_self _ frm g.buffer_ ⟨dv, nl⟩ hnd)]
    simp [hd2]
  · rw [indegree_eq_ok _ tgt (by
      show tgt < (modifyAt _ frm g.buffer_).length
      rw [length_modifyAt, ← size_eq_length]
      omega)]
    have hsum := sum_map_modifyAt (fun nd : Node T => nd.next.countP (fun t => t == tgt))
      (fun nd => { nd with next := nd.next ++ [tgt] }) frm g.buffer_ ⟨dv, nl⟩ hnd
    simp only [List.countP_append] at hsum
    simp only [Except.ok.injEq]
    have hone : List.countP (fun t => t == tgt) [tgt] = 1 := by simp
    rw [hone] at hsum
    omega
  · have hsz1 : frm < (modifyAt (fun nd : Node T =>
        { nd with next := nd.next ++ [tgt] }) frm g.buffer_).length := by
      rw [length_modifyAt]
      omega
    have hsz2 : tgt < (modifyAt (fun nd : Node T =>
        { nd with next := nd.next ++ [tgt] }) frm g.buffer_).length := by
      rw [length_modifyAt]
      rw [← size_eq_length]
      omega
    have hbuf2 : modifyAt (fun nd =>
        { nd with next := eraseRightmost (fun t => t == tgt) nd.next }) frm
        (modifyAt (fun nd => { nd with next := nd.next ++ [tgt] }) frm g.buffer_)
        = g.buffer_ := by
      rw [modifyAt_modifyAt]
      apply modifyAt_eq_self _ _ _ _ hnd
      simp only
      rw [eraseRightmost_append_singleton _ _ _ (by simp)]
    refine ⟨_, disconnectEdge_eq_ok _ frm tgt hsz1 hsz2, ?_, ?_⟩
    · rw [hbuf2]
      exact hd
    · rw [hbuf2]
      exact hi

/-- Witness for the degree round-trip: two nodes 5, 6 with no edges yet. -/
theorem connect_disconnect_degrees_witness :
    ((ofVector [5, 6] : DirectedGraph Nat).outdegree 0 = .ok 0 ∧
      (ofVector [5, 6] : DirectedGraph Nat).indegree 1 = .ok 0) ∧
    (∃ g1, (ofVector [5, 6] : DirectedGraph Nat).connect 0 1 = .ok g1 ∧
      g1.outdegree 0 = .ok 1 ∧ g1.indegree 1 = .ok 1 ∧
      ∃ g2, g1.disconnectEdge 0 1 = .ok g2 ∧
        g2.outdegree 0 = .ok 0 ∧ g2.indegree 1 = .ok 0) :=
  ⟨⟨rfl, rfl⟩, connect_disconnect_degrees (ofVector [5, 6]) 0 1 0 0 rfl rfl⟩

end PIC10C

namespace PIC10C

open DirectedGraph

/-- C6: on a graph holding at least one (frm, tgt) edge — node `frm`'s
adjacency list splits as `u ++ tgt :: v` with no further `tgt` in `v`, and
the record list splits as `p ++ (frm, tgt) :: q` with no further (frm, tgt)
record in `q` — `disconnect(frm, tgt)` succeeds and removes exactly the
exhibited rightmost (most recently inserted) occurrence from each
representation: node `frm`'s list becomes `u ++ v`, the record list becomes
`p ++ q`, and every other node is untouched, so earlier parallel edges
survive. -/
theorem disconnectEdge_rightmost (g : DirectedGraph T) (frm tgt : Nat)
    (nd : Node T) (u v : List Nat) (p q : List DirectedEdge)
    (hnd : g.buffer_[frm]? = some nd) (ht : tgt < g.size)
    (hnext : nd.next = u ++ tgt :: v) (hv : tgt ∉ v)
    (hpath : g.path_ = p ++ DirectedEdge.mk frm tgt :: q)
    (hq : DirectedEdge.mk frm tgt ∉ q) :
    ∃ g1, g.disconnectEdge frm tgt = .ok g1 ∧
      g1.buffer_[frm]? = some { nd with next := u ++ v } ∧
      (∀ j, j ≠ frm → g1.buffer_[j]? = g.buffer_[j]?) ∧
      g1.path_ = p ++ q := by
  have hfl : frm < g.buffer_.length := by
    rcases List.getElem?_eq_some_iff.mp hnd with ⟨h1, _⟩
    exact h1
  have hf : frm < g.size := by
    rw [size_eq_length]
    omega
  refine ⟨_, disconnectEdge_eq_ok g frm tgt hf ht, ?_, ?_, ?_⟩
  · rw [getElem?_modifyAt_self _ frm g.buffer_ nd hnd]
    rw [hnext, eraseRightmost_decomp _ u v tgt (by simp)
      (by
        intro x hx
        have hne : x ≠ tgt := fun he => hv (he ▸ hx)
        simp [hne])]
  · intro j hj
    exact getElem?_modifyAt_ne _ frm j g.buffer_ hj
  · show eraseRightmost (fun e => edgeBEq e (DirectedEdge.mk frm tgt)) g.path_ = p ++ q
    rw [hpath, eraseRightmost_decomp _ p q (DirectedEdge.mk frm tgt)
      (by rw [edgeBEq_iff])
      (by
        intro e he
        have hne : ¬ (edgeBEq e (DirectedEdge.mk frm tgt) = true) := by
          intro hb
          exact hq ((edgeBEq_iff e (DirectedEdge.mk frm tgt)).mp hb ▸ he)
        simp only [Bool.not_eq_true] at hne
        exact hne)]

/-- Two nodes 1, 2 with two parallel (0, 1) edges, for the C6 witness. -/
def gMulti : DirectedGraph Nat := ((ofVector [1, 2]).connectRun 0 1).connectRun 0 1

theorem disconnectEdge_rightmost_witness :
    (gMulti.buffer_[0]? = some (Node.mk 1 [1, 1]) ∧ 1 < gMulti.size ∧
      (Node.mk 1 [1, 1] : Node Nat).next = [1] ++ 1 :: [] ∧ (1 : Nat) ∉ ([] : List Nat) ∧
      gMulti.path_ = [DirectedEdge.mk 0 1] ++ DirectedEdge.mk 0 1 :: [] ∧
      DirectedEdge.mk 0 1 ∉ ([] : List DirectedEdge)) ∧
    (∃ g1, gMulti.disconnectEdge 0 1 = .ok g1 ∧
      g1.buffer_[0]? = some { Node.mk 1 [1, 1] with next := [1] ++ [] } ∧
      (∀ j, j ≠ 0 → g1.buffer_[j]? = gMulti.buffer_[j]?) ∧
      g1.path_ = [DirectedEdge.mk 0 1] ++ []) :=
  ⟨⟨rfl, by decide, rfl, by decide, rfl, by decide⟩,
   disconnectEdge_rightmost gMulti 0 1 (Node.mk 1 [1, 1]) [1] [] [DirectedEdge.mk 0 1] []
     rfl (by decide) rfl (by decide) rfl (by decide)⟩

theorem mem_enum_pair (l : List α) (i : Nat) (a : α) :
    (i, a) ∈ l.enum ↔ l[i]? = some a :=
  List.mem_enum_iff_getElem?

theorem simple_eq_true_iff (g : DirectedGraph T) :
    g.simple = true ↔
      ∀ (i : Nat) (nd : Node T), g.buffer_[i]? = some nd → i ∉ nd.next ∧ nd.next.Nodup := by
  unfold simple
  rw [List.all_eq_true]
  constructor
  · intro h i nd hind
    have h2 := h (i, nd) ((mem_enum_pair g.buffer_ i nd).mpr hind)
    rw [List.all_eq_true] at h2
    constructor
    · intro hmem
      obtain ⟨j, hjlt, hj⟩ := List.getElem_of_mem hmem
      have h3 := h2 (j, i) ((mem_enum_pair nd.next j i).mpr
        (by rw [List.getElem?_eq_getElem hjlt, hj]))
      rw [Bool.and_eq_true] at h3
      have h4 := h3.1
      simp at h4
    · rw [List.nodup_iff_injective_get]
      intro a b hab
      have h3 := h2 (a.1, nd.next.get a) ((mem_enum_pair nd.next a.1 (nd.next.get a)).mpr
        (by rw [List.getElem?_eq_getElem a.2]; rfl))
      rw [Bool.and_eq_true] at h3
      rw [List.all_eq_true] at h3
      have h4 := h3.2 (b.1, nd.next.get b) ((mem_enum_pair nd.next b.1 (nd.next.get b)).mpr
        (by rw [List.getElem?_eq_getElem b.2]; rfl))
      rw [Bool.or_eq_true] at h4
      rcases h4 with h4 | h4
      · exact Fin.ext (by simpa using h4)
      · rw [hab] at h4
        simp at h4
  · intro h x hx
    obtain ⟨i, nd⟩ := x
    have hind : g.buffer_[i]? = some nd := (mem_enum_pair g.buffer_ i nd).mp hx
    obtain ⟨hno, hnd⟩ := h i nd hind
    rw [List.all_eq_true]
    intro y hy
    obtain ⟨j, xv⟩ := y
    have hj : nd.next[j]? = some xv := (mem_enum_pair nd.next j xv).mp hy
    obtain ⟨hjlt, hjv⟩ := List.getElem?_eq_some_iff.mp hj
    rw [Bool.and_eq_true]
    constructor
    · have hxv : xv ∈ nd.next := hjv ▸ List.getElem_mem hjlt
      have hne : xv ≠ i := fun he => hno (he ▸ hxv)
      simp [hne]
    · rw [List.all_eq_true]
      intro z hz
      obtain ⟨k, yv⟩ := z
      have hk : nd.next[k]? = some yv := (mem_enum_pair nd.next k yv).mp hz
      obtain ⟨hklt, hkv⟩ := List.getElem?_eq_some_iff.mp hk
      rw [Bool.or_eq_true]
      by_cases hjk : j = k
      · left
        simp [hjk]
      · right
        have hinj := List.nodup_iff_injective_get.mp hnd
        have hne : xv ≠ yv := by
          intro he
          apply hjk
          have := @hinj ⟨j, hjlt⟩ ⟨k, hklt⟩ (by
            show nd.next[j] = nd.next[k]
            rw [hjv, hkv, he])
          simpa using this
        simp [hne]

theorem simple_eq_false_iff (g : DirectedGraph T) :
    g.simple = false ↔
      ∃ (i : Nat) (nd : Node T), g.buffer_[i]? = some nd ∧ (i ∈ nd.next ∨ ¬ nd.next.Nodup) := by
  constructor
  · intro h
    by_contra hno
    push_neg at hno
    have : g.simple = true := (simple_eq_true_iff g).mpr (fun i nd hi => by
      have h2 := hno i nd hi
      exact ⟨h2.1, h2.2⟩)
    rw [this] at h
    exact Bool.noConfusion h
  · rintro ⟨i, nd, hi, hbad⟩
    rw [← Bool.not_eq_true]
    intro htrue
    obtain ⟨hno, hnd⟩ := (simple_eq_true_iff g).mp htrue i nd hi
    rcases hbad with hbad | hbad
    · exact hno hbad
    · exact hbad hnd

/-- Bounds and the exact result of a successful `connect`. -/
theorem connect_ok_elim (g : DirectedGraph T) (frm tgt : Nat) (g1 : DirectedGraph T)
    (h : g.connect frm tgt = .ok g1) :
    frm < g.size ∧ tgt < g.size ∧
      g1 = { buffer_ := modifyAt (fun nd => { nd with next := nd.next ++ [tgt] }) frm g.buffer_,
             path_ := stableSort (g.path_ ++ [DirectedEdge.mk frm tgt]) } := by
  by_cases hf : g.size ≤ frm
  · unfold connect test_index at h
    rw [if_pos hf] at h
    exact Except.noConfusion h
  · by_cases ht : g.size ≤ tgt
    · unfold connect test_index at h
      rw [if_neg hf, if_pos ht] at h
      exact Except.noConfusion h
    · rw [connect_eq_ok g frm tgt (by omega) (by omega)] at h
      exact ⟨by omega, by omega, (Except.ok.inj h).symm⟩

end PIC10C

namespace PIC10C

open DirectedGraph

/-- C8: `simple()` returns false exactly when some node has a self loop or
holds two or more outgoing references to the same target node; in particular
it is false after any successful `connect(x, x)`, false after two successful
`connect(a, b)` calls with the same arguments, and true whenever every
adjacency list is loop-free and duplicate-free. -/
theorem simple_characterization (g : DirectedGraph T) (x a b : Nat) :
    (g.simple = false ↔
      ∃ (i : Nat) (nd : Node T), g.buffer_[i]? = some nd ∧ (i ∈ nd.next ∨ ¬ nd.next.Nodup)) ∧
    (∀ g1, g.connect x x = .ok g1 → g1.simple = false) ∧
    (∀ g1 g2, g.connect a b = .ok g1 → g1.connect a b = .ok g2 → g2.simple = false) ∧
    ((∀ (i : Nat) (nd : Node T), g.buffer_[i]? = some nd → i ∉ nd.next ∧ nd.next.Nodup) →
      g.simple = true) := by
  refine ⟨simple_eq_false_iff g, ?_, ?_, (simple_eq_true_iff g).mpr⟩
  · intro g1 h
    obtain ⟨hx, -, hg1⟩ := connect_ok_elim g x x g1 h
    have hxl : x < g.buffer_.length := by
      rw [← size_eq_length]
      omega
    obtain ⟨nd, hnd⟩ : ∃ nd, g.buffer_[x]? = some nd := ⟨_, List.getElem?_eq_getElem hxl⟩
    rw [simple_eq_false_iff g1]
    refine ⟨x, { nd with next := nd.next ++ [x] }, ?_, Or.inl (by simp)⟩
    rw [hg1]
    exact getElem?_modifyAt_self _ x g.buffer_ nd hnd
  · intro g1 g2 h1 h2
    obtain ⟨ha, hb, hg1⟩ := connect_ok_elim g a b g1 h1
    obtain ⟨-, -, hg2⟩ := connect_ok_elim g1 a b g2 h2
    have hal : a < g.buffer_.length := by
      rw [← size_eq_length]
      omega
    obtain ⟨nd, hnd⟩ : ∃ nd, g.buffer_[a]? = some nd := ⟨_, List.getElem?_eq_getElem hal⟩
    have hnd1 : g1.buffer_[a]? = some { nd with next := nd.next ++ [b] } := by
      rw [hg1]
      exact getElem?_modifyAt_self _ a g.buffer_ nd hnd
    have hnd2 : g2.buffer_[a]? = some { nd with next := (nd.next ++ [b]) ++ [b] } := by
      rw [hg2]
      exact getElem?_modifyAt_self _ a g1.buffer_ _ hnd1
    rw [simple_eq_false_iff g2]
    refine ⟨a, _, hnd2, Or.inr ?_⟩
    intro hdup
    have hsub : [b, b].Sublist ((nd.next ++ [b]) ++ [b]) := by
      rw [List.append_assoc]
      exact List.sublist_append_right nd.next ([b] ++ [b])
    have hbb : ([b, b] : List Nat).Nodup := hsub.nodup hdup
    simp at hbb

/-- C8 witness: a self loop on a concrete two-node graph, via the second
conjunct of the characterization applied at the computed `connect` result. -/
theorem simple_characterization_witness :
    ((ofVector [1, 2] : DirectedGraph Nat).connectRun 0 0).simple = false :=
  (simple_characterization (ofVector [1, 2] : DirectedGraph Nat) 0 0 1).2.1
    ((ofVector [1, 2] : DirectedGraph Nat).connectRun 0 0) rfl

end PIC10C

namespace PIC10C

open DirectedGraph

theorem ofVector_foldl (v : List T) : ∀ g : DirectedGraph T,
    v.foldl push_back g =
      { buffer_ := g.buffer_ ++ v.map (fun x => Node.mk x []), path_ := g.path_ } := by
  induction v with
  | nil =>
    intro g
    simp
  | cons x xs ih =>
    intro g
    rw [List.foldl_cons, ih]
    simp [push_back]

theorem ofVector_eq (v : List T) :
    ofVector v = { buffer_ := v.map (fun x => Node.mk x []), path_ := [] } := by
  unfold ofVector
  rw [ofVector_foldl]
  rfl

theorem size_ofVector (v : List T) : (ofVector v).size = v.length := by
  rw [ofVector_eq, size_eq_length]
  exact List.length_map v _

theorem graphEq_iff [DecidableEq T] (g h : DirectedGraph T) :
    graphEq g h = true ↔
      (g.size = h.size ∧
        (∀ i : Nat, g.buffer_[i]?.map Node.data = h.buffer_[i]?.map Node.data) ∧
        g.path_ = h.path_) := by
  unfold graphEq
  rw [Bool.and_eq_true, Bool.and_eq_true, pathEq_iff, List.all_eq_true]
  constructor
  · rintro ⟨⟨hsz, hvals⟩, hpath⟩
    have hsize : g.size = h.size := by simpa using hsz
    refine ⟨hsize, ?_, hpath⟩
    intro i
    by_cases hi : i < g.size
    · have hgl : i < g.buffer_.length := by
        rw [← size_eq_length]
        omega
      have hhl : i < h.buffer_.length := by
        rw [← size_eq_length]
        omega
      have hmem := hvals i (List.mem_range.mpr hi)
      rw [List.getElem?_eq_getElem hgl, List.getElem?_eq_getElem hhl] at hmem ⊢
      simp only at hmem
      rw [beq_iff_eq] at hmem
      simp [hmem]
    · have hg0 : g.buffer_[i]? = none := List.getElem?_eq_none (by
        rw [← size_eq_length]
        omega)
      have hh0 : h.buffer_[i]? = none := List.getElem?_eq_none (by
        rw [← size_eq_length]
        omega)
      rw [hg0, hh0]
  · rintro ⟨hsize, hvals, hpath⟩
    refine ⟨⟨by simpa using hsize, ?_⟩, hpath⟩
    intro i hi
    have hilt : i < g.size := List.mem_range.mp hi
    have hgl : i < g.buffer_.length := by
      rw [← size_eq_length]
      omega
    have hhl : i < h.buffer_.length := by
      rw [← size_eq_length]
      omega
    have hv := hvals i
    rw [List.getElem?_eq_getElem hgl, List.getElem?_eq_getElem hhl] at hv
    simp at hv
    rw [List.getElem?_eq_getElem hgl, List.getElem?_eq_getElem hhl]
    simp only
    rw [hv]
    exact beq_self_eq_true _

/-- `connect` requests folded over a list through the throw-leaves-unchanged
reading: the way a caller builds a multigraph edge by edge. -/
def connectAll (g : DirectedGraph T) (es : List (Nat × Nat)) : DirectedGraph T :=
  es.foldl (fun h e => h.connectRun e.1 e.2) g

theorem connectRun_cases (g : DirectedGraph T) (frm tgt : Nat) :
    ((g.size ≤ frm ∨ g.size ≤ tgt) ∧ g.connectRun frm tgt = g) ∨
    (frm < g.size ∧ tgt < g.size ∧
      g.connectRun frm tgt =
        { buffer_ := modifyAt (fun nd => { nd with next := nd.next ++ [tgt] }) frm g.buffer_,
          path_ := stableSort (g.path_ ++ [DirectedEdge.mk frm tgt]) }) := by
  by_cases hf : g.size ≤ frm
  · left
    refine ⟨Or.inl hf, ?_⟩
    unfold connectRun runOn connect test_index
    rw [if_pos hf]
  · by_cases ht : g.size ≤ tgt
    · left
      refine ⟨Or.inr ht, ?_⟩
      unfold connectRun runOn connect test_index
      rw [if_neg hf, if_pos ht]
    · right
      refine ⟨by omega, by omega, ?_⟩
      unfold connectRun runOn
      rw [connect_eq_ok g frm tgt (by omega) (by omega)]

theorem connectRun_values (g : DirectedGraph T) (frm tgt : Nat) :
    (g.connectRun frm tgt).buffer_.map Node.data = g.buffer_.map Node.data := by
  rcases connectRun_cases g frm tgt with ⟨-, he⟩ | ⟨-, -, he⟩
  · rw [he]
  · rw [he]
    exact map_modifyAt_invariant _ _ frm g.buffer_ (fun x => rfl)

theorem connectRun_size (g : DirectedGraph T) (frm tgt : Nat) :
    (g.connectRun frm tgt).size = g.size := by
  have h := congrArg List.length (connectRun_values g frm tgt)
  simpa [size_eq_length] using h

theorem connectRun_path_sorted (g : DirectedGraph T) (frm tgt : Nat)
    (h : List.Sorted edgeRel g.path_) :
    List.Sorted edgeRel (g.connectRun frm tgt).path_ := by
  rcases connectRun_cases g frm tgt with ⟨-, he⟩ | ⟨-, -, he⟩
  · rw [he]
    exact h
  · rw [he]
    exact List.sorted_insertionSort edgeRel _

theorem connectRun_path_perm (g : DirectedGraph T) (frm tgt : Nat)
    (hf : frm < g.size) (ht : tgt < g.size) :
    (g.connectRun frm tgt).path_.Perm (g.path_ ++ [DirectedEdge.mk frm tgt]) := by
  rcases connectRun_cases g frm tgt with ⟨hb, -⟩ | ⟨-, -, he⟩
  · omega
  · rw [he]
    exact List.perm_insertionSort edgeRel _

theorem connectAll_values (g : DirectedGraph T) (es : List (Nat × Nat)) :
    (connectAll g es).buffer_.map Node.data = g.buffer_.map Node.data := by
  induction es generalizing g with
  | nil => rfl
  | cons e es ih =>
    show (connectAll (g.connectRun e.1 e.2) es).buffer_.map Node.data = _
    rw [ih, connectRun_values]

theorem connectAll_size (g : DirectedGraph T) (es : List (Nat × Nat)) :
    (connectAll g es).size = g.size := by
  have h := congrArg List.length (connectAll_values g es)
  simpa [size_eq_length] using h

theorem connectAll_path_sorted (g : DirectedGraph T) (es : List (Nat × Nat))
    (h : List.Sorted edgeRel g.path_) :
    List.Sorted edgeRel (connectAll g es).path_ := by
  induction es generalizing g with
  | nil => exact h
  | cons e es ih => exact ih _ (connectRun_path_sorted g e.1 e.2 h)

theorem connectAll_path_perm (g : DirectedGraph T) (es : List (Nat × Nat))
    (hr : ∀ e ∈ es, e.1 < g.size ∧ e.2 < g.size) :
    (connectAll g es).path_.Perm
      (g.path_ ++ es.map (fun e => DirectedEdge.mk e.1 e.2)) := by
  induction es generalizing g with
  | nil => simp [connectAll]
  | cons e es ih =>
    have he := hr e (by simp)
    have hr2 : ∀ x ∈ es, x.1 < (g.connectRun e.1 e.2).size ∧
        x.2 < (g.connectRun e.1 e.2).size := by
      intro x hx
      rw [connectRun_size]
      exact hr x (by simp [hx])
    have h1 := ih (g.connectRun e.1 e.2) hr2
    have h2 := (connectRun_path_perm g e.1 e.2 he.1 he.2).append_right
      (es.map (fun x => DirectedEdge.mk x.1 x.2))
    show (connectAll (g.connectRun e.1 e.2) es).path_.Perm _
    refine h1.trans (h2.trans ?_)
    rw [List.append_assoc]
    simp

/-- C7: `operator==` holds exactly when the two graphs have the same size,
equal node values at every position, and identical edge-record sequences (the
adjacency lists are not compared); and because every `connect` re-sorts the
record list with a stable sort under a total, antisymmetric order, two graphs
built from the same value list by connect sequences that are permutations of
one another — the same final (head, tail) multiset — compare equal. -/
theorem graph_equality_sorted [DecidableEq T] (g h : DirectedGraph T)
    (vals : List T) (es1 es2 : List (Nat × Nat))
    (hr : ∀ e ∈ es1, e.1 < vals.length ∧ e.2 < vals.length)
    (hperm : es1.Perm es2) :
    (graphEq g h = true ↔
      (g.size = h.size ∧
        (∀ i : Nat, g.buffer_[i]?.map Node.data = h.buffer_[i]?.map Node.data) ∧
        g.path_ = h.path_)) ∧
    graphEq (connectAll (ofVector vals) es1) (connectAll (ofVector vals) es2) = true := by
  refine ⟨graphEq_iff g h, ?_⟩
  have hr1 : ∀ e ∈ es1, e.1 < (ofVector vals : DirectedGraph T).size ∧
      e.2 < (ofVector vals : DirectedGraph T).size := by
    intro e he
    rw [size_ofVector]
    exact hr e he
  have hr2 : ∀ e ∈ es2, e.1 < (ofVector vals : DirectedGraph T).size ∧
      e.2 < (ofVector vals : DirectedGraph T).size := by
    intro e he
    exact hr1 e (hperm.mem_iff.mpr he)
  have hnil : (ofVector vals : DirectedGraph T).path_ = [] := by
    rw [ofVector_eq]
  have hs1 : List.Sorted edgeRel (connectAll (ofVector vals) es1).path_ :=
    connectAll_path_sorted _ es1 (by rw [hnil]; exact List.sorted_nil)
  have hs2 : List.Sorted edgeRel (connectAll (ofVector vals) es2).path_ :=
    connectAll_path_sorted _ es2 (by rw [hnil]; exact List.sorted_nil)
  have hp1 := connectAll_path_perm (ofVector vals : DirectedGraph T) es1 hr1
  have hp2 := connectAll_path_perm (ofVector vals : DirectedGraph T) es2 hr2
  rw [hnil, List.nil_append] at hp1 hp2
  have hmm : (es1.map (fun e => DirectedEdge.mk e.1 e.2)).Perm
      (es2.map (fun e => DirectedEdge.mk e.1 e.2)) := hperm.map _
  have hpp : (connectAll (ofVector vals) es1).path_.Perm
      (connectAll (ofVector vals : DirectedGraph T) es2).path_ :=
    hp1.trans (hmm.trans hp2.symm)
  have hpatheq := List.eq_of_perm_of_sorted hpp hs1 hs2
  have hvv := (connectAll_values (ofVector vals : DirectedGraph T) es1).trans
    (connectAll_values (ofVector vals : DirectedGraph T) es2).symm
  refine (graphEq_iff _ _).mpr ⟨?_, ?_, hpatheq⟩
  · rw [connectAll_size, connectAll_size]
  · intro i
    rw [← List.getElem?_map, ← List.getElem?_map, hvv]

/-- C7 witness: nodes 10, 20, 30 with the triangle edges added in two
different orders compare equal. -/
theorem graph_equality_sorted_witness :
    ((∀ e ∈ [((0 : Nat), (1 : Nat)), (1, 2), (2, 0)],
        e.1 < ([10, 20, 30] : List Nat).length ∧ e.2 < ([10, 20, 30] : List Nat).length) ∧
      List.Perm [((0 : Nat), (1 : Nat)), (1, 2), (2, 0)] [(2, 0), (0, 1), (1, 2)]) ∧
    graphEq (connectAll (ofVector [10, 20, 30]) [(0, 1), (1, 2), (2, 0)])
      (connectAll (ofVector [10, 20, 30]) [(2, 0), (0, 1), (1, 2)]) = true :=
  ⟨⟨by decide, by decide⟩,
   (graph_equality_sorted (emptyGraph : DirectedGraph Nat) emptyGraph [10, 20, 30]
     [(0, 1), (1, 2), (2, 0)] [(2, 0), (0, 1), (1, 2)] (by decide) (by decide)).2⟩

end PIC10C

namespace PIC10C

namespace Heap

/-!
Heap-level model for the aliasing claim.  The pure, positional model above
cannot distinguish an aliased from a non-aliased copy, so here `shared_ptr`
allocation is explicit: a `Store` is the list of node cells in allocation
order (`std::make_shared` appends a fresh cell), a graph object holds the
addresses of its nodes, and adjacency entries are addresses.
-/

/-- One heap cell: the `Node` object that `shared_ptr`/`weak_ptr` values
point at (`data_` and `next_`, the latter as the addresses pointed to). -/
structure Cell (T : Type) where
  data : T
  next : List Nat
deriving DecidableEq, Repr

instance {T : Type} [Inhabited T] : Inhabited (Cell T) := ⟨⟨default, []⟩⟩

/-- The heap: cells addressed by allocation order. -/
structure Store (T : Type) where
  cells : List (Cell T)
deriving DecidableEq, Repr

/-- One `DirectedGraph` object: the addresses of its nodes (`buffer_`, each
entry a `shared_ptr`) and its own edge-record vector (`path_`, held by value
inside the object, so never shared between objects). -/
structure HGraph where
  buffer_ : List Nat
  path_ : List DirectedEdge
deriving DecidableEq, Repr

variable {T : Type}

/-- Dereference an address.  A dangling or wild address yields the default
cell; the source would have undefined behavior there, and every theorem below
assumes well-addressed inputs so the default is never reached. -/
def cellAt [Inhabited T] (s : Store T) (a : Nat) : Cell T :=
  s.cells.getD a default

/-- Mutate the cell at one address, as `buffer_[i] -> ...` does. -/
def writeCell (s : Store T) (a : Nat) (f : Cell T → Cell T) : Store T :=
  ⟨DirectedGraph.modifyAt f a s.cells⟩

/-- Well-addressed graph object: every node address is a live cell and every
record's endpoints are node positions. -/
def WF (s : Store T) (g : HGraph) : Prop :=
  (∀ a ∈ g.buffer_, a < s.cells.length) ∧
  (∀ e ∈ g.path_, e.head < g.buffer_.length ∧ e.tail < g.buffer_.length)

instance (s : Store T) (g : HGraph) : Decidable (WF s g) := by
  unfold WF
  infer_instance

/-- The copy constructor `DirectedGraph(const DirectedGraph& rhs)`: phase 1
allocates one fresh cell per source node carrying a copy of its value
(`buffer_.push_back(std::make_shared<Node>(element->data_))`, so the new
addresses follow all existing cells); phase 2 replays the copied record list
(`buffer_[element.head()]->next_.push_back(buffer_[element.tail()])`), never
touching the source's cells.  Copy assignment `operator=` performs `clear()`
on the destination and then exactly these two loops, so the resulting
(store, copy) pair is the same function of the source. -/
def copyGraph [Inhabited T] (s : Store T) (rhs : HGraph) : Store T × HGraph :=
  let base := s.cells.length
  let s1 : Store T := ⟨s.cells ++ rhs.buffer_.map (fun a => Cell.mk (cellAt s a).data [])⟩
  let buf := (List.range rhs.buffer_.length).map (fun i => base + i)
  let s2 := rhs.path_.foldl
    (fun st e => writeCell st (buf.getD e.head 0)
      (fun c => { c with next := c.next ++ [buf.getD e.tail 0] }))
    s1
  (s2, { buffer_ := buf, path_ := rhs.path_ })

/-- `connect(from, to)` on the heap: after the bounds checks (a throw leaves
store and object unchanged), `buffer_[from]->next_.push_back(buffer_[to])`
mutates one cell of this object, and the record append + re-sort mutates only
the object's own `path_` vector. -/
def connectH [Inhabited T] (s : Store T) (g : HGraph) (frm tgt : Nat) :
    Store T × HGraph :=
  if g.buffer_.length ≤ frm then (s, g)
  else if g.buffer_.length ≤ tgt then (s, g)
  else
    (writeCell s (g.buffer_.getD frm 0)
       (fun c => { c with next := c.next ++ [g.buffer_.getD tgt 0] }),
     { g with path_ := stableSort (g.path_ ++ [DirectedEdge.mk frm tgt]) })

/-- Value assignment through `at(k)` (bounds-checked; a throw changes
nothing): writes the data field of this object's node `k`. -/
def setValueH [Inhabited T] (s : Store T) (g : HGraph) (k : Nat) (v : T) : Store T :=
  if g.buffer_.length ≤ k then s
  else writeCell s (g.buffer_.getD k 0) (fun c => { c with data := v })

/-- Node values in position order. -/
def valuesH [Inhabited T] (s : Store T) (g : HGraph) : List T :=
  g.buffer_.map (fun a => (cellAt s a).data)

/-- Outdegrees in position order. -/
def outdegListH [Inhabited T] (s : Store T) (g : HGraph) : List Nat :=
  g.buffer_.map (fun a => (cellAt s a).next.length)

/-- Indegrees in position order: for each node, the references to it counted
across all of this graph's adjacency lists. -/
def indegListH [Inhabited T] (s : Store T) (g : HGraph) : List Nat :=
  g.buffer_.map (fun b =>
    (g.buffer_.map (fun a => (cellAt s a).next.countP (fun t => t == b))).sum)

/-- Every degree and value observation of one graph object. -/
def obsH [Inhabited T] (s : Store T) (g : HGraph) : List T × List Nat × List Nat :=
  (valuesH s g, outdegListH s g, indegListH s g)

theorem cellAt_writeCell_ne [Inhabited T] (s : Store T) (a b : Nat)
    (f : Cell T → Cell T) (h : b ≠ a) : cellAt (writeCell s a f) b = cellAt s b := by
  unfold cellAt writeCell
  rw [List.getD_eq_getElem?_getD, List.getD_eq_getElem?_getD]
  rw [getElem?_modifyAt_ne f a b s.cells h]

theorem obsH_congr [Inhabited T] (s1 s2 : Store T) (g : HGraph)
    (h : ∀ a ∈ g.buffer_, cellAt s1 a = cellAt s2 a) : obsH s1 g = obsH s2 g := by
  have h1 : valuesH s1 g = valuesH s2 g :=
    List.map_congr_left (fun a ha => by rw [h a ha])
  have h2 : outdegListH s1 g = outdegListH s2 g :=
    List.map_congr_left (fun a ha => by rw [h a ha])
  have h3 : indegListH s1 g = indegListH s2 g :=
    List.map_congr_left (fun b hb => by
      have hin : g.buffer_.map (fun a => (cellAt s1 a).next.countP (fun t => t == b)) =
          g.buffer_.map (fun a => (cellAt s2 a).next.countP (fun t => t == b)) :=
        List.map_congr_left (fun a ha => by rw [h a ha])
      rw [hin])
  unfold obsH
  rw [h1, h2, h3]

theorem cellAt_foldl_write [Inhabited T] (es : List DirectedEdge)
    (A : DirectedEdge → Nat) (P : DirectedEdge → Cell T → Cell T)
    (s : Store T) (b : Nat) (hb : ∀ e ∈ es, A e ≠ b) :
    cellAt (es.foldl (fun st e => writeCell st (A e) (P e)) s) b = cellAt s b := by
  induction es generalizing s with
  | nil => rfl
  | cons e es ih =>
    rw [List.foldl_cons]
    rw [ih _ (fun x hx => hb x (by simp [hx]))]
    exact cellAt_writeCell_ne s (A e) b (P e) (Ne.symm (hb e (by simp)))

theorem cellAt_append_low [Inhabited T] (s : Store T) (l : List (Cell T)) (a : Nat)
    (h : a < s.cells.length) : cellAt ⟨s.cells ++ l⟩ a = cellAt s a := by
  unfold cellAt
  rw [List.getD_eq_getElem?_getD, List.getD_eq_getElem?_getD]
  rw [List.getElem?_append_left h]

theorem range_map_getD (n b frm : Nat) (h : frm < n) :
    ((List.range n).map (fun i => b + i)).getD frm 0 = b + frm := by
  rw [List.getD_eq_getElem?_getD, List.getElem?_map, List.getElem?_range h]
  rfl

theorem mem_range_map_ge (n b a : Nat)
    (h : a ∈ (List.range n).map (fun i => b + i)) : b ≤ a := by
  obtain ⟨i, hi, he⟩ := List.mem_map.mp h
  omega

theorem copyGraph_preserves_low [Inhabited T] (s : Store T) (g : HGraph)
    (hwf : WF s g) (b : Nat) (hb : b < s.cells.length) :
    cellAt (copyGraph s g).1 b = cellAt s b := by
  have hAddr : ∀ e ∈ g.path_,
      ((List.range g.buffer_.length).map (fun i => s.cells.length + i)).getD e.head 0 ≠ b := by
    intro e he
    rw [range_map_getD _ _ _ (hwf.2 e he).1]
    omega
  show cellAt (g.path_.foldl (fun st e => writeCell st
      (((List.range g.buffer_.length).map (fun i => s.cells.length + i)).getD e.head 0)
      (fun c => { c with next := c.next ++
        [((List.range g.buffer_.length).map (fun i => s.cells.length + i)).getD e.tail 0] }))
      ⟨s.cells ++ g.buffer_.map (fun a => Cell.mk (cellAt s a).data [])⟩) b = cellAt s b
  rw [cellAt_foldl_write g.path_ _ _ _ b hAddr]
  exact cellAt_append_low s _ b hb

end Heap

end PIC10C

namespace PIC10C

namespace Heap

variable {T : Type}

/-- C9: copy construction (and copy assignment, which runs the same two
loops after clearing the destination) shares no storage with the source.
With `s1` the heap after the copy and `c` the copy object: the copy itself
leaves every observation of the original unchanged; `connect` or value
assignment performed on the copy leaves the original's values, outdegrees and
indegrees unchanged; and symmetrically, `connect` or value assignment on the
original leaves the copy's observations unchanged.  The edge-record vectors
are object fields copied by value, so they are unshared by construction. -/
theorem copy_independence [Inhabited T] (s : Store T) (g : HGraph) (hwf : WF s g) :
    (obsH (copyGraph s g).1 g = obsH s g) ∧
    (∀ frm tgt, obsH (connectH (copyGraph s g).1 (copyGraph s g).2 frm tgt).1 g = obsH s g) ∧
    (∀ k v, obsH (setValueH (copyGraph s g).1 (copyGraph s g).2 k v) g = obsH s g) ∧
    (∀ frm tgt, obsH (connectH (copyGraph s g).1 g frm tgt).1 (copyGraph s g).2
      = obsH (copyGraph s g).1 (copyGraph s g).2) ∧
    (∀ k v, obsH (setValueH (copyGraph s g).1 g k v) (copyGraph s g).2
      = obsH (copyGraph s g).1 (copyGraph s g).2) := by
  have h1 : obsH (copyGraph s g).1 g = obsH s g :=
    obsH_congr _ _ g (fun a ha => copyGraph_preserves_low s g hwf a (hwf.1 a ha))
  have hclen : (copyGraph s g).2.buffer_.length = g.buffer_.length := by
    show ((List.range g.buffer_.length).map (fun i => s.cells.length + i)).length = _
    simp
  have hcaddr : ∀ frm, frm < g.buffer_.length →
      (copyGraph s g).2.buffer_.getD frm 0 = s.cells.length + frm := by
    intro frm hfrm
    show ((List.range g.buffer_.length).map (fun i => s.cells.length + i)).getD frm 0 = _
    exact range_map_getD _ _ _ hfrm
  have hcmem : ∀ a ∈ (copyGraph s g).2.buffer_, s.cells.length ≤ a := by
    intro a ha
    exact mem_range_map_ge g.buffer_.length s.cells.length a ha
  refine ⟨h1, ?_, ?_, ?_, ?_⟩
  · intro frm tgt
    by_cases hf : (copyGraph s g).2.buffer_.length ≤ frm
    · unfold connectH
      rw [if_pos hf]
      exact h1
    · by_cases ht : (copyGraph s g).2.buffer_.length ≤ tgt
      · unfold connectH
        rw [if_neg hf, if_pos ht]
        exact h1
      · unfold connectH
        rw [if_neg hf, if_neg ht]
        refine (obsH_congr _ _ g ?_).trans h1
        intro a ha
        rw [hcaddr frm (by omega)]
        refine cellAt_writeCell_ne _ _ a _ ?_
        have hla := hwf.1 a ha
        omega
  · intro k v
    by_cases hk : (copyGraph s g).2.buffer_.length ≤ k
    · unfold setValueH
      rw [if_pos hk]
      exact h1
    · unfold setValueH
      rw [if_neg hk]
      refine (obsH_congr _ _ g ?_).trans h1
      intro a ha
      rw [hcaddr k (by omega)]
      refine cellAt_writeCell_ne _ _ a _ ?_
      have hla := hwf.1 a ha
      omega
  · intro frm tgt
    by_cases hf : g.buffer_.length ≤ frm
    · unfold connectH
      rw [if_pos hf]
    · by_cases ht : g.buffer_.length ≤ tgt
      · unfold connectH
        rw [if_neg hf, if_pos ht]
      · unfold connectH
        rw [if_neg hf, if_neg ht]
        have hflt : frm < g.buffer_.length := by omega
        have haddr : g.buffer_.getD frm 0 < s.cells.length := by
          rw [List.getD_eq_getElem?_getD, List.getElem?_eq_getElem hflt]
          exact hwf.1 _ (List.getElem_mem hflt)
        refine obsH_congr _ _ (copyGraph s g).2 ?_
        intro a ha
        refine cellAt_writeCell_ne _ _ a _ ?_
        have hba := hcmem a ha
        omega
  · intro k v
    by_cases hk : g.buffer_.length ≤ k
    · unfold setValueH
      rw [if_pos hk]
    · unfold setValueH
      rw [if_neg hk]
      have hklt : k < g.buffer_.length := by omega
      have haddr : g.buffer_.getD k 0 < s.cells.length := by
        rw [List.getD_eq_getElem?_getD, List.getElem?_eq_getElem hklt]
        exact hwf.1 _ (List.getElem_mem hklt)
      refine obsH_congr _ _ (copyGraph s g).2 ?_
      intro a ha
      refine cellAt_writeCell_ne _ _ a _ ?_
      have hba := hcmem a ha
      omega

/-- A concrete two-node heap graph with one edge, for the C9 witness. -/
def sW : Store Nat := ⟨[Cell.mk 10 [1], Cell.mk 20 []]⟩

/-- The graph object owning both cells of `sW`, with the record (0, 1). -/
def gW : HGraph := ⟨[0, 1], [DirectedEdge.mk 0 1]⟩

theorem copy_independence_witness :
    WF sW gW ∧
    (obsH (copyGraph sW gW).1 gW = obsH sW gW) ∧
    (obsH (connectH (copyGraph sW gW).1 (copyGraph sW gW).2 1 0).1 gW = obsH sW gW) ∧
    (obsH (setValueH (copyGraph sW gW).1 (copyGraph sW gW).2 0 99) gW = obsH sW gW) ∧
    (obsH (connectH (copyGraph sW gW).1 gW 1 0).1 (copyGraph sW gW).2
      = obsH (copyGraph sW gW).1 (copyGraph sW gW).2) ∧
    (obsH (setValueH (copyGraph sW gW).1 gW 0 99) (copyGraph sW gW).2
      = obsH (copyGraph sW gW).1 (copyGraph sW gW).2) :=
  ⟨by decide,
   (copy_independence sW gW (by decide)).1,
   (copy_independence sW gW (by decide)).2.1 1 0,
   (copy_independence sW gW (by decide)).2.2.1 0 99,
   (copy_independence sW gW (by decide)).2.2.2.1 1 0,
   (copy_independence sW gW (by decide)).2.2.2.2 0 99⟩

end Heap

end PIC10C
